import Mathlib

set_option maxHeartbeats 1000000

/-!
Verification development for the Next Asia Link company-agent repository:
a browser form component (URL collection, normalization, deduplication,
validation, submission) and its server-side relay endpoint that forwards
the payload to a configured webhook.  All definitions below are shallow
embeddings of the TypeScript source; strings are Lean strings (lists of
characters), JSON values are an explicit inductive type, and the two
platform effects the handlers use (JSON.parse of downstream text, the
downstream fetch itself) are passed in as explicit arguments.
-/

/-- The whitespace class used by JavaScript String.prototype.trim,
restricted to the ASCII whitespace characters. -/
def isWsChar (c : Char) : Bool :=
  c == ' ' || c == '\t' || c == '\n' || c == '\r' || c == '\x0b' || c == '\x0c'

def trimLeftChars (l : List Char) : List Char := l.dropWhile isWsChar

def trimRightChars (l : List Char) : List Char := (l.reverse.dropWhile isWsChar).reverse

def trimChars (l : List Char) : List Char := trimRightChars (trimLeftChars l)

/-- JS String.prototype.trim, modelled on the character list of a string. -/
def jsTrim (s : String) : String := ⟨trimChars s.data⟩

/-- Boolean prefix test on character lists (source: the anchored regex tests). -/
def isPrefixCharsOf : List Char → List Char → Bool
  | [], _ => true
  | _ :: _, [] => false
  | a :: as, b :: bs => if a = b then isPrefixCharsOf as bs else false

def lowerList (l : List Char) : List Char := l.map Char.toLower

/-- The test performed by the case-insensitive anchored regex of
normalizeUrl in src/app/page.tsx: the string starts, up to ASCII case,
with "http://" or "https://". -/
def hasHttpScheme (l : List Char) : Bool :=
  isPrefixCharsOf "http://".data (lowerList l) || isPrefixCharsOf "https://".data (lowerList l)

/-- normalizeUrl from src/app/page.tsx lines 19-24: trim the input; empty
becomes empty; a string without an http/https scheme gets "https://"
prepended; otherwise the trimmed string is returned unchanged. -/
def normalizeUrlChars (input : List Char) : List Char :=
  let v := trimChars input
  if v.isEmpty then []
  else if hasHttpScheme v then v
  else "https://".data ++ v

def normalizeUrl (s : String) : String := ⟨normalizeUrlChars s.data⟩

/-! Lemmas about dropWhile used for the trim function. -/

theorem dropWhile_self {α : Type} (p : α → Bool) (l : List α) :
    (l.dropWhile p).dropWhile p = l.dropWhile p := by
  induction l with
  | nil => rfl
  | cons a t ih =>
    cases h : p a with
    | true => simp [List.dropWhile_cons, h, ih]
    | false => simp [List.dropWhile_cons, h]

theorem dropWhile_head_false {α : Type} {p : α → Bool} {l t : List α} {a : α}
    (h : l.dropWhile p = a :: t) : p a = false := by
  induction l with
  | nil => simp [List.dropWhile] at h
  | cons b m ih =>
    cases hb : p b with
    | true =>
      rw [List.dropWhile_cons] at h
      simp [hb] at h
      exact ih h
    | false =>
      rw [List.dropWhile_cons] at h
      simp [hb] at h
      exact h.1 ▸ hb

theorem dropWhile_eq_self_of_head {α : Type} {p : α → Bool} {a : α} (t : List α)
    (h : p a = false) : (a :: t).dropWhile p = a :: t := by
  simp [List.dropWhile_cons, h]

theorem trimRight_decomp (m : List Char) :
    m = trimRightChars m ++ (m.reverse.takeWhile isWsChar).reverse := by
  have h := congrArg List.reverse (List.takeWhile_append_dropWhile (p := isWsChar) (l := m.reverse))
  simp only [List.reverse_append, List.reverse_reverse] at h
  rw [trimRightChars]
  exact h.symm

theorem trimLeft_trim (l : List Char) :
    trimLeftChars (trimChars l) = trimChars l := by
  rw [trimChars]
  cases htr : trimRightChars (trimLeftChars l) with
  | nil => rfl
  | cons a t =>
    have hm : trimLeftChars l = (a :: t) ++ ((trimLeftChars l).reverse.takeWhile isWsChar).reverse := by
      rw [← htr]
      exact trimRight_decomp _
    rw [List.cons_append] at hm
    have hpa : isWsChar a = false := by
      apply dropWhile_head_false (l := l)
      exact hm
    exact dropWhile_eq_self_of_head t hpa

theorem trimRight_trimRight (m : List Char) :
    trimRightChars (trimRightChars m) = trimRightChars m := by
  simp [trimRightChars, List.reverse_reverse, dropWhile_self]

theorem trimChars_idem (l : List Char) : trimChars (trimChars l) = trimChars l := by
  have h1 := trimLeft_trim l
  calc trimChars (trimChars l)
      = trimRightChars (trimLeftChars (trimChars l)) := rfl
    _ = trimRightChars (trimChars l) := by rw [h1]
    _ = trimChars l := by rw [trimChars, trimRight_trimRight]

theorem isPrefixCharsOf_append (l t : List Char) : isPrefixCharsOf l (l ++ t) = true := by
  induction l with
  | nil => rfl
  | cons a as ih => simp [isPrefixCharsOf, ih]

theorem trim_https_append {v : List Char} (hv : v = trimChars v) (hne : v ≠ []) :
    trimChars ("https://".data ++ v) = "https://".data ++ v := by
  have hleft : trimLeftChars ("https://".data ++ v) = "https://".data ++ v := by
    show List.dropWhile isWsChar ('h' :: ("ttps://".data ++ v)) = 'h' :: ("ttps://".data ++ v)
    exact dropWhile_eq_self_of_head _ (by decide)
  have hvrev : v.reverse = (trimLeftChars v).reverse.dropWhile isWsChar := by
    conv_lhs => rw [hv]
    rw [trimChars, trimRightChars, List.reverse_reverse]
  have hrevne : v.reverse ≠ [] := by
    intro h
    exact hne (by simpa using congrArg List.reverse h)
  obtain ⟨a, t, hat⟩ : ∃ a t, v.reverse = a :: t := by
    cases hv2 : v.reverse with
    | nil => exact absurd hv2 hrevne
    | cons a t => exact ⟨a, t, rfl⟩
  have hpa : isWsChar a = false := by
    apply dropWhile_head_false (l := (trimLeftChars v).reverse)
    rw [← hvrev]
    exact hat
  have hright : trimRightChars ("https://".data ++ v) = "https://".data ++ v := by
    rw [trimRightChars, List.reverse_append, hat, List.cons_append,
      dropWhile_eq_self_of_head _ hpa, ← List.cons_append, ← hat, List.reverse_append,
      List.reverse_reverse, List.reverse_reverse]
  rw [trimChars, hleft, hright]

theorem hasHttpScheme_https_append (v : List Char) :
    hasHttpScheme ("https://".data ++ v) = true := by
  have h1 : lowerList ("https://".data ++ v) = "https://".data ++ lowerList v := by
    rw [lowerList, List.map_append]
    rfl
  rw [hasHttpScheme, h1, isPrefixCharsOf_append]
  simp

theorem normalizeUrlChars_self {x : List Char} (h1 : trimChars x = x)
    (h2 : x.isEmpty = false) (h3 : hasHttpScheme x = true) : normalizeUrlChars x = x := by
  simp only [normalizeUrlChars]
  rw [h1, h2, h3]
  simp

/-- C4: normalizeUrl is idempotent, proved at the character-list level. -/
theorem normalizeUrlChars_idem (l : List Char) :
    normalizeUrlChars (normalizeUrlChars l) = normalizeUrlChars l := by
  by_cases hv : (trimChars l).isEmpty
  · have h0 : normalizeUrlChars l = [] := by
      rw [normalizeUrlChars]
      simp [hv]
    rw [h0]
    rfl
  · have hvne : trimChars l ≠ [] := by
      intro h
      rw [h] at hv
      exact hv rfl
    by_cases hs : hasHttpScheme (trimChars l)
    · have h1 : normalizeUrlChars l = trimChars l := by
        rw [normalizeUrlChars]
        simp [hv, hs]
      rw [h1, normalizeUrlChars]
      rw [trimChars_idem]
      simp [hv, hs]
    · have h1 : normalizeUrlChars l = "https://".data ++ trimChars l := by
        rw [normalizeUrlChars]
        simp [hv, hs]
      rw [h1]
      have hfix : trimChars ("https://".data ++ trimChars l) = "https://".data ++ trimChars l :=
        trim_https_append (trimChars_idem l).symm hvne
      have hne2 : ("https://".data ++ trimChars l).isEmpty = false := rfl
      exact normalizeUrlChars_self hfix hne2 (hasHttpScheme_https_append (trimChars l))

/-- C4: For every input string s, normalizeUrl is idempotent:
normalizeUrl (normalizeUrl s) = normalizeUrl s. -/
theorem normalizeUrl_idempotent (s : String) :
    normalizeUrl (normalizeUrl s) = normalizeUrl s := by
  simp only [normalizeUrl]
  exact congrArg String.mk (normalizeUrlChars_idem s.data)

/-! The paste tokenizer of src/app/page.tsx.  The split regex alternates,
at each scan position, a carriage-return-optional newline, a comma, a tab,
or a maximal run of spaces; pieces between separator matches are kept,
including empty ones. -/

/-- The scanner behind the split of pasteMany (src/app/page.tsx line 92):
the split regex matches, scanning left to right, a carriage-return
optional newline, a comma, a tab, or a greedy run of spaces; the pieces
between matches are collected.  cur is the current piece accumulated in
reverse; the flag records that a space run whose piece was already
emitted is still being consumed. -/
def splitSepsAux : List Char → List Char → Bool → List (List Char)
  | [], cur, _ => [cur.reverse]
  | '\r' :: '\n' :: rest, cur, _ => cur.reverse :: splitSepsAux rest [] false
  | '\n' :: rest, cur, _ => cur.reverse :: splitSepsAux rest [] false
  | ',' :: rest, cur, _ => cur.reverse :: splitSepsAux rest [] false
  | '\t' :: rest, cur, _ => cur.reverse :: splitSepsAux rest [] false
  | ' ' :: rest, cur, skipping =>
    if skipping then splitSepsAux rest [] true
    else cur.reverse :: splitSepsAux rest [] true
  | c :: rest, cur, _ => splitSepsAux rest (c :: cur) false

/-- The piece list produced by text.split on the regex of pasteMany. -/
def splitSeps (l : List Char) : List (List Char) := splitSepsAux l [] false

/-- The token list of pasteMany: split pieces, each trimmed, empty pieces
dropped (lines 91-94 of src/app/page.tsx). -/
def tokensOf (text : String) : List String :=
  (((splitSeps text.data).map trimChars).filter (fun t => !t.isEmpty)).map String.mk

/-- The unanchored test regex of the onPaste handler (line 307): it
matches iff the text contains a newline, comma, tab or space (a lone
carriage return does not match since the pattern needs the newline). -/
def hasSeparator (text : String) : Bool :=
  text.data.any (fun c => c = '\n' || c = ',' || c = '\t' || c = ' ')

/-- One editable row of the form: an opaque identifier and the raw url
text.  The source generates identifiers with a random uid(); the model
uses a natural-number counter as the supply of fresh identifiers (the
claims only need freshness/uniqueness, which the spec stipulates). -/
structure Row where
  id : Nat
  url : String
deriving Repr, DecidableEq

/-- The assignment next[next.length - 1] = \x7b ...last, url: first \x7d of
pasteMany: replace the url of the last row, keeping its id.  The source
never reaches this with an empty row list (at least one row always
exists); on [] the model returns []. -/
def setLastUrl : List Row → String → List Row
  | [], _ => []
  | [r], u => [{ r with url := u }]
  | r :: r2 :: rest, u => r :: setLastUrl (r2 :: rest) u

/-- The appended rows of pasteMany: one fresh row per remaining token,
ids drawn from the counter in order. -/
def freshRows (n : Nat) : List String → List Row
  | [] => []
  | u :: us => ⟨n, u⟩ :: freshRows (n + 1) us

/-- pasteMany (src/app/page.tsx lines 90-106): with at most one non-empty
token the state is unchanged; otherwise the first token replaces the url
of the last row and each remaining token is appended as a new row. -/
def pasteMany (rows : List Row) (n : Nat) (text : String) : List Row × Nat :=
  match tokensOf text with
  | f :: b :: t => (setLastUrl rows f ++ freshRows n (b :: t), n + (b :: t).length)
  | _ => (rows, n)

inductive PasteOutcome where
  | default
  | intercepted (rows : List Row) (n : Nat)
deriving Repr, DecidableEq

/-- The onPaste handler (src/app/page.tsx lines 305-311): if the test
regex matches the pasted text, prevent the default paste and run
pasteMany; otherwise the default paste behavior applies. -/
def onPaste (rows : List Row) (n : Nat) (text : String) : PasteOutcome :=
  if hasSeparator text then
    let p := pasteMany rows n text
    .intercepted p.1 p.2
  else .default

/-! The remaining Entry-list operations of the component. -/

/-- addRow (line 82): append one empty row with a fresh id. -/
def addRow (rows : List Row) (newId : Nat) : List Row := rows ++ [⟨newId, ""⟩]

/-- removeRow (lines 84-85): a no-op when only one row remains, else
remove the rows with the given id. -/
def removeRow (rows : List Row) (id : Nat) : List Row :=
  if rows.length = 1 then rows else rows.filter (fun r => r.id ≠ id)

/-- setUrl (lines 87-88): replace the url of the row with the given id. -/
def setUrl (rows : List Row) (id : Nat) (url : String) : List Row :=
  rows.map (fun r => if r.id = id then { r with url := url } else r)

/-- The derived normalized url sequence (line 79): map normalizeUrl over
the rows and drop empty results (filter(Boolean)). -/
def urlsOf (rows : List Row) : List String :=
  (rows.map (fun r => normalizeUrl r.url)).filter (fun s => !s.isEmpty)

/-- Array.from(new Set(urls)) (line 80): insertion-order deduplication by
exact string equality. -/
def setDedup (l : List String) : List String :=
  l.foldl (fun acc a => if a ∈ acc then acc else acc ++ [a]) []

def uniqueUrlsOf (rows : List Row) : List String := setDedup (urlsOf rows)

/-- Reference form of first-occurrence deduplication: keep each element's
first occurrence, drop its later duplicates. -/
def keepFirst : List String → List String
  | [] => []
  | a :: t => a :: keepFirst (t.filter (fun b => b ≠ a))
  termination_by l => l.length
  decreasing_by
    simp_wf
    exact Nat.lt_succ_of_le (List.length_filter_le _ _)

/-! Equation-shaped lemmas for the split scanner, and the behavior of the
paste handler. -/

theorem splitSepsAux_other {c : Char} (rest cur : List Char) (b : Bool)
    (h2 : c ≠ '\n') (h3 : c ≠ ',') (h4 : c ≠ '\t') (h5 : c ≠ ' ')
    (h1 : c = '\r' → rest.head? ≠ some '\n') :
    splitSepsAux (c :: rest) cur b = splitSepsAux rest (c :: cur) false := by
  rw [splitSepsAux.eq_def]
  split
  all_goals simp_all

theorem splitSepsAux_no_sep (l : List Char)
    (h : ∀ c ∈ l, (c = '\n' ∨ c = ',' ∨ c = '\t' ∨ c = ' ') → False) :
    ∀ cur, splitSepsAux l cur false = [cur.reverse ++ l] := by
  induction l with
  | nil => intro cur; simp [splitSepsAux]
  | cons c rest ih =>
    intro cur
    have hc2 : c ≠ '\n' := fun hh => h c (List.mem_cons_self c rest) (Or.inl hh)
    have hc3 : c ≠ ',' := fun hh => h c (List.mem_cons_self c rest) (Or.inr (Or.inl hh))
    have hc4 : c ≠ '\t' := fun hh => h c (List.mem_cons_self c rest) (Or.inr (Or.inr (Or.inl hh)))
    have hc5 : c ≠ ' ' := fun hh => h c (List.mem_cons_self c rest) (Or.inr (Or.inr (Or.inr hh)))
    have h1 : c = '\r' → rest.head? ≠ some '\n' := by
      intro _ hhd
      cases rest with
      | nil => simp at hhd
      | cons d r2 =>
        simp at hhd
        exact h d (List.mem_cons_of_mem c (List.mem_cons_self d r2)) (Or.inl hhd)
    rw [splitSepsAux_other rest cur false hc2 hc3 hc4 hc5 h1]
    rw [ih (fun d hd hsep => h d (List.mem_cons_of_mem c hd) hsep) (c :: cur)]
    simp

theorem tokensOf_le_one_of_no_sep {text : String} (h : hasSeparator text = false) :
    (tokensOf text).length ≤ 1 := by
  have hmem : ∀ c ∈ text.data, (c = '\n' ∨ c = ',' ∨ c = '\t' ∨ c = ' ') → False := by
    simp only [hasSeparator, List.any_eq_false, Bool.or_eq_true, decide_eq_true_eq] at h
    intro c hc hor
    rcases hor with h1 | h2 | h3 | h4
    · exact h c hc (by simp [h1])
    · exact h c hc (by simp [h2])
    · exact h c hc (by simp [h3])
    · exact h c hc (by simp [h4])
  have hsplit : splitSeps text.data = [text.data] := by
    rw [splitSeps, splitSepsAux_no_sep text.data hmem []]
    rfl
  rw [tokensOf, hsplit]
  simp only [List.map_cons, List.map_nil, List.length_map]
  exact le_trans (List.length_filter_le _ _) (by simp)

theorem hasSeparator_of_two_tokens {text : String} {f b : String} {t : List String}
    (h : tokensOf text = f :: b :: t) : hasSeparator text = true := by
  cases hs : hasSeparator text with
  | true => rfl
  | false =>
    have hle := tokensOf_le_one_of_no_sep hs
    rw [h] at hle
    simp at hle

theorem setLastUrl_map_id (rows : List Row) (u : String) :
    (setLastUrl rows u).map Row.id = rows.map Row.id := by
  induction rows with
  | nil => rfl
  | cons r rest ih =>
    cases rest with
    | nil => rfl
    | cons r2 rest2 =>
      show Row.id r :: (setLastUrl (r2 :: rest2) u).map Row.id = Row.id r :: (r2 :: rest2).map Row.id
      rw [ih]

theorem setLastUrl_map_url (rows : List Row) (u : String) (h : rows ≠ []) :
    (setLastUrl rows u).map Row.url = rows.dropLast.map Row.url ++ [u] := by
  induction rows with
  | nil => exact absurd rfl h
  | cons r rest ih =>
    cases rest with
    | nil => rfl
    | cons r2 rest2 =>
      show Row.url r :: (setLastUrl (r2 :: rest2) u).map Row.url = _
      rw [ih (List.cons_ne_nil r2 rest2)]
      rfl

theorem setLastUrl_length (rows : List Row) (u : String) :
    (setLastUrl rows u).length = rows.length := by
  have := congrArg List.length (setLastUrl_map_id rows u)
  simpa using this

theorem freshRows_map_url (us : List String) : ∀ n, (freshRows n us).map Row.url = us := by
  induction us with
  | nil => intro n; rfl
  | cons u us ih =>
    intro n
    show u :: (freshRows (n + 1) us).map Row.url = u :: us
    rw [ih]

theorem freshRows_map_id (us : List String) :
    ∀ n, (freshRows n us).map Row.id = List.range' n us.length := by
  induction us with
  | nil => intro n; rfl
  | cons u us ih =>
    intro n
    show n :: (freshRows (n + 1) us).map Row.id = List.range' n (us.length + 1)
    rw [ih, List.range'_succ]

/-- C2 counterexample: the claim fails on the code in two ways.  First,
with rows [(id 0, ""), (id 1, "x")] and the paste happening in the row
with id 0, the code assigns the first token to the LAST row (id 1), not
to the row being edited: row 0 keeps url "".  Second, the one-token text
"a.com " (trailing space) is intercepted with no state change instead of
falling through to the default paste. -/
theorem onPaste_claim_counterexample :
    (tokensOf "a.com b.com" = ["a.com", "b.com"]
      ∧ onPaste [⟨0, ""⟩, ⟨1, "x"⟩] 2 "a.com b.com"
          = .intercepted [⟨0, ""⟩, ⟨1, "a.com"⟩, ⟨2, "b.com"⟩] 3)
    ∧ (tokensOf "a.com " = ["a.com"]
      ∧ onPaste [⟨0, ""⟩] 1 "a.com " = .intercepted [⟨0, ""⟩] 1
      ∧ onPaste [⟨0, ""⟩] 1 "a.com " ≠ .default) := by
  exact ⟨⟨rfl, rfl⟩, rfl, rfl, by decide⟩

/-- C2 amended: the paste is intercepted iff the text contains a
separator character (newline, comma, tab or space); when intercepted, if
the text splits into at most one non-empty token the row list is
unchanged, and if it splits into two or more tokens the first token
replaces the url of the LAST row (not the row being edited) and one
fresh row is appended per remaining token in token order; texts without
a separator (which have at most one token) get the default paste. -/
theorem onPaste_behavior (rows : List Row) (n : Nat) (text : String) (hrows : rows ≠ []) :
    (hasSeparator text = false →
        onPaste rows n text = .default ∧ (tokensOf text).length ≤ 1)
    ∧ (hasSeparator text = true → (tokensOf text).length ≤ 1 →
        onPaste rows n text = .intercepted rows n)
    ∧ (∀ f b t, tokensOf text = f :: b :: t →
        onPaste rows n text
            = .intercepted (setLastUrl rows f ++ freshRows n (b :: t)) (n + (b :: t).length)
          ∧ (setLastUrl rows f ++ freshRows n (b :: t)).map Row.url
              = rows.dropLast.map Row.url ++ f :: b :: t
          ∧ (setLastUrl rows f ++ freshRows n (b :: t)).map Row.id
              = rows.map Row.id ++ List.range' n (b :: t).length) := by
  refine ⟨fun hsep => ⟨?_, tokensOf_le_one_of_no_sep hsep⟩, fun hsep hle => ?_, fun f b t ht => ?_⟩
  · rw [onPaste, if_neg]
    simp [hsep]
  · rw [onPaste, if_pos (by simp [hsep])]
    cases ht : tokensOf text with
    | nil => simp [pasteMany, ht]
    | cons f rest =>
      cases rest with
      | nil => simp [pasteMany, ht]
      | cons b t =>
        rw [ht] at hle
        simp at hle
  · have hsep := hasSeparator_of_two_tokens ht
    refine ⟨?_, ?_, ?_⟩
    · rw [onPaste, if_pos (by simp [hsep])]
      simp [pasteMany, ht]
    · rw [List.map_append, setLastUrl_map_url rows f hrows, freshRows_map_url]
      simp
    · rw [List.map_append, setLastUrl_map_id, freshRows_map_id]

/-- Witness for C2 amended: pasting "a b" while a single empty row (id 0)
exists replaces its url with "a" and appends a fresh row (id 1) with "b". -/
theorem onPaste_behavior_witness :
    onPaste [⟨0, ""⟩] 1 "a b" = .intercepted [⟨0, "a"⟩, ⟨1, "b"⟩] 2 := by
  have h := ((onPaste_behavior [⟨0, ""⟩] 1 "a b" (by simp)).2.2 "a" "b" [] rfl).1
  rw [h]
  rfl

/-! Deduplication: Array.from(new Set(urls)) keeps the first occurrence
of each string, in order. -/

theorem setDedup_go (l : List String) :
    ∀ acc : List String,
      l.foldl (fun acc a => if a ∈ acc then acc else acc ++ [a]) acc
        = acc ++ keepFirst (l.filter (fun x => decide (x ∉ acc))) := by
  induction l with
  | nil => intro acc; simp [keepFirst]
  | cons a t ih =>
    intro acc
    rw [List.foldl_cons]
    by_cases ha : a ∈ acc
    · simp only [if_pos ha]
      rw [ih acc, List.filter_cons]
      simp [ha]
    · simp only [if_neg ha]
      rw [ih (acc ++ [a]), List.filter_cons]
      have hpa : (decide (a ∉ acc)) = true := by simp [ha]
      rw [hpa]
      simp only [if_pos]
      rw [keepFirst]
      have hff : t.filter (fun x => decide (x ∉ acc ++ [a]))
          = (t.filter (fun x => decide (x ∉ acc))).filter (fun b => decide (b ≠ a)) := by
        rw [List.filter_filter]
        apply List.filter_congr
        intro x _
        by_cases h1 : x ∈ acc <;> by_cases h2 : x = a <;> simp [h1, h2]
      rw [hff]
      simp

theorem keepFirst_mem (l : List String) : ∀ x : String, x ∈ keepFirst l ↔ x ∈ l := by
  induction l using keepFirst.induct with
  | case1 => simp [keepFirst]
  | case2 a t ih =>
    intro x
    rw [keepFirst]
    by_cases hx : x = a
    · subst hx; simp
    · simp only [List.mem_cons]
      have h2 := ih x
      rw [List.mem_filter] at h2
      constructor
      · rintro (h | h)
        · exact absurd h hx
        · exact Or.inr (h2.mp h).1
      · rintro (h | h)
        · exact absurd h hx
        · exact Or.inr (h2.mpr ⟨h, by simp [hx]⟩)

theorem keepFirst_nodup (l : List String) : (keepFirst l).Nodup := by
  induction l using keepFirst.induct with
  | case1 => simp [keepFirst]
  | case2 a t ih =>
    rw [keepFirst]
    rw [List.nodup_cons]
    refine ⟨fun h => ?_, ih⟩
    have := (keepFirst_mem _ a).mp h
    rw [List.mem_filter] at this
    simpa using this.2

theorem setDedup_eq_keepFirst (l : List String) : setDedup l = keepFirst l := by
  rw [setDedup, setDedup_go l []]
  have : l.filter (fun x => decide (x ∉ ([] : List String))) = l := by
    apply List.filter_eq_self.mpr
    intro x _
    simp
  rw [this]
  rfl

/-- C9: deduplication of the normalized url sequence (line 80 of
src/app/page.tsx) removes duplicates by exact string equality, keeps the
first occurrence and preserves order: the concrete example [b,a,b,c,a]
gives [b,a,c]; in general the result equals the keep-first-occurrence
reference function, has no duplicates, has the same members as the
input, and every member of the input occurs exactly once. -/
theorem setDedup_spec :
    setDedup ["b", "a", "b", "c", "a"] = ["b", "a", "c"]
    ∧ (∀ l : List String, setDedup l = keepFirst l)
    ∧ (∀ l : List String, (setDedup l).Nodup)
    ∧ (∀ (l : List String) (x : String), x ∈ setDedup l ↔ x ∈ l)
    ∧ (∀ (l : List String) (x : String), x ∈ l → (setDedup l).count x = 1) := by
  refine ⟨rfl, setDedup_eq_keepFirst, ?_, ?_, ?_⟩
  · intro l
    rw [setDedup_eq_keepFirst]
    exact keepFirst_nodup l
  · intro l x
    rw [setDedup_eq_keepFirst]
    exact keepFirst_mem l x
  · intro l x hx
    rw [setDedup_eq_keepFirst]
    exact List.count_eq_one_of_mem (keepFirst_nodup l) ((keepFirst_mem l x).mpr hx)

/-- Witness for C9: the member "b" of the concrete input occurs exactly
once in the deduplicated output. -/
theorem setDedup_spec_witness :
    "b" ∈ (["b", "a", "b", "c", "a"] : List String)
    ∧ (setDedup ["b", "a", "b", "c", "a"]).count "b" = 1 :=
  ⟨by decide, setDedup_spec.2.2.2.2 ["b", "a", "b", "c", "a"] "b" (by decide)⟩

/-! The component state: the row list plus the fresh-identifier supply
(the source draws ids from a random uid(); the model draws them from a
counter — the claims only rely on freshness, which the spec stipulates
for generated identifiers). -/

structure FormState where
  rows : List Row
  nextId : Nat
deriving Repr, DecidableEq

/-- The initial component state (line 75): exactly one empty row. -/
def initState : FormState := ⟨[⟨0, ""⟩], 1⟩

def addRowS (s : FormState) : FormState := ⟨addRow s.rows s.nextId, s.nextId + 1⟩

def removeRowS (s : FormState) (id : Nat) : FormState := ⟨removeRow s.rows id, s.nextId⟩

def setUrlS (s : FormState) (id : Nat) (url : String) : FormState :=
  ⟨setUrl s.rows id url, s.nextId⟩

def pasteManyS (s : FormState) (text : String) : FormState :=
  ⟨(pasteMany s.rows s.nextId text).1, (pasteMany s.rows s.nextId text).2⟩

/-- clearAll of the second page variant: reset to one empty row. -/
def clearAllS (s : FormState) : FormState := ⟨[⟨s.nextId, ""⟩], s.nextId + 1⟩

/-- The state invariant: at least one row, pairwise distinct row ids, and
all ids below the fresh-id counter. -/
def FormInv (s : FormState) : Prop :=
  1 ≤ s.rows.length ∧ (s.rows.map Row.id).Nodup ∧ ∀ r ∈ s.rows, r.id < s.nextId

theorem filter_ne_length (rows : List Row) (id : Nat) :
    rows.length ≤ (rows.filter (fun r => decide (r.id ≠ id))).length
      + (rows.map Row.id).count id := by
  induction rows with
  | nil => simp
  | cons r t ih =>
    by_cases h : r.id = id
    · have h1 : List.filter (fun r => decide (r.id ≠ id)) (r :: t)
          = List.filter (fun r => decide (r.id ≠ id)) t := by
        rw [List.filter_cons]
        simp [h]
      have h2 : ((r :: t).map Row.id).count id = ((t.map Row.id).count id) + 1 := by
        simp [List.count_cons, h]
      rw [h1, h2, List.length_cons]
      omega
    · have h1 : List.filter (fun r => decide (r.id ≠ id)) (r :: t)
          = r :: List.filter (fun r => decide (r.id ≠ id)) t := by
        rw [List.filter_cons]
        simp [h]
      have h2 : ((r :: t).map Row.id).count id = (t.map Row.id).count id := by
        simp [List.count_cons, h]
      rw [h1, h2, List.length_cons, List.length_cons]
      omega

theorem filter_rowids_nodup {rows : List Row} (h : (rows.map Row.id).Nodup) (p : Row → Bool) :
    ((rows.filter p).map Row.id).Nodup :=
  h.sublist (List.Sublist.map Row.id (List.filter_sublist rows))

theorem map_rowid_of_pointwise (rows : List Row) (g : Row → Row) (h : ∀ r, (g r).id = r.id) :
    (rows.map g).map Row.id = rows.map Row.id := by
  induction rows with
  | nil => rfl
  | cons r t ih => simp [h r, ih]

theorem freshRows_length (us : List String) (n : Nat) : (freshRows n us).length = us.length := by
  have := congrArg List.length (freshRows_map_url us n)
  simpa using this

theorem formInv_init : FormInv initState := ⟨by decide, by decide, by decide⟩

/-- C5: the Entry-list state always contains at least one Entry.  The
initial state has exactly one Entry; addRow, removeRow, setUrl,
pasteMany and clearAll all preserve the invariant (at least one row,
distinct fresh ids), in particular the row count stays at least 1; and
removeRow on a single remaining Entry is a no-op leaving the state
unchanged. -/
theorem entryCount_invariant :
    (FormInv initState ∧ initState.rows.length = 1)
    ∧ (∀ s, FormInv s → FormInv (addRowS s) ∧ 1 ≤ (addRowS s).rows.length)
    ∧ (∀ s id, FormInv s → FormInv (removeRowS s id) ∧ 1 ≤ (removeRowS s id).rows.length)
    ∧ (∀ s id url, FormInv s → FormInv (setUrlS s id url) ∧ 1 ≤ (setUrlS s id url).rows.length)
    ∧ (∀ s text, FormInv s → FormInv (pasteManyS s text) ∧ 1 ≤ (pasteManyS s text).rows.length)
    ∧ (∀ s, FormInv (clearAllS s) ∧ 1 ≤ (clearAllS s).rows.length)
    ∧ (∀ s id, s.rows.length = 1 → removeRowS s id = s) := by
  refine ⟨⟨formInv_init, rfl⟩, ?_, ?_, ?_, ?_, ?_, ?_⟩
  · -- addRow
    rintro s ⟨h1, h2, h3⟩
    unfold FormInv
    have hlen : (addRowS s).rows.length = s.rows.length + 1 := by
      simp [addRowS, addRow]
    refine ⟨⟨by omega, ?_, ?_⟩, by omega⟩
    · show ((s.rows ++ [Row.mk s.nextId ""]).map Row.id).Nodup
      rw [List.map_append, List.nodup_append]
      refine ⟨h2, by simp, ?_⟩
      intro x hx hx2
      simp at hx2
      obtain ⟨r, hr, hrx⟩ := List.mem_map.mp hx
      have := h3 r hr
      omega
    · intro r hr
      show r.id < s.nextId + 1
      rcases List.mem_append.mp hr with h | h
      · exact Nat.lt_succ_of_lt (h3 r h)
      · simp at h
        simp [h]
  · -- removeRow
    rintro s id ⟨h1, h2, h3⟩
    unfold FormInv
    by_cases hlen : s.rows.length = 1
    · have heq : removeRowS s id = s := by
        show FormState.mk (removeRow s.rows id) s.nextId = s
        rw [removeRow, if_pos hlen]
      rw [heq]
      exact ⟨⟨h1, h2, h3⟩, h1⟩
    · have hcnt : (s.rows.map Row.id).count id ≤ 1 :=
        List.nodup_iff_count_le_one.mp h2 id
      have hflt := filter_ne_length s.rows id
      have hr1 : (removeRowS s id).rows = s.rows.filter (fun r => decide (r.id ≠ id)) := by
        show removeRow s.rows id = _
        rw [removeRow, if_neg hlen]
      have hlen1 : 1 ≤ (removeRowS s id).rows.length := by
        rw [hr1]
        omega
      refine ⟨⟨hlen1, ?_, ?_⟩, hlen1⟩
      · rw [hr1]
        exact filter_rowids_nodup h2 _
      · intro r hr
        rw [hr1] at hr
        show r.id < s.nextId
        exact h3 r (List.mem_of_mem_filter hr)
  · -- setUrl
    rintro s id url ⟨h1, h2, h3⟩
    unfold FormInv
    have hmap : (setUrl s.rows id url).map Row.id = s.rows.map Row.id := by
      rw [setUrl]
      apply map_rowid_of_pointwise
      intro r
      by_cases hr : r.id = id <;> simp [hr]
    have hlen : (setUrlS s id url).rows.length = s.rows.length := by
      show (setUrl s.rows id url).length = s.rows.length
      have := congrArg List.length hmap
      simpa using this
    refine ⟨⟨by omega, ?_, ?_⟩, by omega⟩
    · show ((setUrl s.rows id url).map Row.id).Nodup
      rw [hmap]
      exact h2
    · intro r hr
      show r.id < s.nextId
      obtain ⟨r0, hr0, hr0e⟩ := List.mem_map.mp hr
      have hid : r.id = r0.id := by
        subst hr0e
        by_cases h : r0.id = id <;> simp [h]
      rw [hid]
      exact h3 r0 hr0
  · -- pasteMany
    rintro s text ⟨h1, h2, h3⟩
    unfold FormInv
    cases ht : tokensOf text with
    | nil =>
      have heq : pasteManyS s text = s := by
        simp [pasteManyS, pasteMany, ht]
      rw [heq]
      exact ⟨⟨h1, h2, h3⟩, h1⟩
    | cons f rest =>
      cases rest with
      | nil =>
        have heq : pasteManyS s text = s := by
          simp [pasteManyS, pasteMany, ht]
        rw [heq]
        exact ⟨⟨h1, h2, h3⟩, h1⟩
      | cons b t =>
        have hrw : pasteManyS s text
            = ⟨setLastUrl s.rows f ++ freshRows s.nextId (b :: t), s.nextId + (b :: t).length⟩ := by
          simp [pasteManyS, pasteMany, ht]
        rw [hrw]
        have hmapid : (setLastUrl s.rows f ++ freshRows s.nextId (b :: t)).map Row.id
            = s.rows.map Row.id ++ List.range' s.nextId (b :: t).length := by
          rw [List.map_append, setLastUrl_map_id, freshRows_map_id]
        have hlen : (setLastUrl s.rows f ++ freshRows s.nextId (b :: t)).length
            = s.rows.length + (b :: t).length := by
          rw [List.length_append, setLastUrl_length, freshRows_length]
        have hlen1 : 1 ≤ (setLastUrl s.rows f ++ freshRows s.nextId (b :: t)).length := by
          omega
        refine ⟨⟨hlen1, ?_, ?_⟩, hlen1⟩
        · show ((setLastUrl s.rows f ++ freshRows s.nextId (b :: t)).map Row.id).Nodup
          rw [hmapid, List.nodup_append]
          refine ⟨h2, List.nodup_range' _ _, ?_⟩
          intro x hx hx2
          obtain ⟨r, hr, hrx⟩ := List.mem_map.mp hx
          have hge := (List.mem_range'_1.mp hx2).1
          have := h3 r hr
          omega
        · intro r hr
          show r.id < s.nextId + (b :: t).length
          rcases List.mem_append.mp hr with h | h
          · have hm : r.id ∈ (setLastUrl s.rows f).map Row.id := List.mem_map_of_mem Row.id h
            rw [setLastUrl_map_id] at hm
            obtain ⟨r0, hr0, hr0e⟩ := List.mem_map.mp hm
            have := h3 r0 hr0
            omega
          · have hm : r.id ∈ (freshRows s.nextId (b :: t)).map Row.id := List.mem_map_of_mem Row.id h
            rw [freshRows_map_id] at hm
            exact (List.mem_range'_1.mp hm).2
  · -- clearAll
    intro s
    unfold FormInv
    refine ⟨⟨by simp [clearAllS], by simp [clearAllS], ?_⟩, by simp [clearAllS]⟩
    intro r hr
    simp [clearAllS] at hr
    simp [hr, clearAllS]
  · -- removeRow on a singleton state is the identity
    intro s id hlen
    show FormState.mk (removeRow s.rows id) s.nextId = s
    rw [removeRow, if_pos hlen]

/-- Witness for C5: from the initial state, removing the only row is a
no-op, and adding then removing keeps at least one row. -/
theorem entryCount_invariant_witness :
    removeRowS initState 0 = initState
    ∧ 1 ≤ (removeRowS (addRowS initState) 0).rows.length := by
  constructor
  · exact entryCount_invariant.2.2.2.2.2.2 initState 0 rfl
  · have h0 : FormInv initState := entryCount_invariant.1.1
    have h1 : FormInv (addRowS initState) := (entryCount_invariant.2.1 initState h0).1
    exact (entryCount_invariant.2.2.1 (addRowS initState) 0 h1).2

/-! JSON values, as decoded by the platform (req.json / JSON.parse), and
the duck-typed field extraction both files perform on them.  JSON
numbers are modelled as integers; the claims never involve fractional
values.  Option stands for a possibly-undefined value (absent field). -/

mutual
inductive JsValue where
  | null
  | bool (b : Bool)
  | num (n : Int)
  | str (s : String)
  | arr (elems : JsArr)
  | obj (fields : JsObj)
inductive JsArr where
  | nil
  | cons (hd : JsValue) (tl : JsArr)
inductive JsObj where
  | nil
  | cons (key : String) (val : JsValue) (tl : JsObj)
end

def jsArrToList : JsArr → List JsValue
  | .nil => []
  | .cons v t => v :: jsArrToList t

def objGet : JsObj → String → Option JsValue
  | .nil, _ => none
  | .cons k v t, key => if k = key then some v else objGet t key

/-- asObject (both files): a non-null object passes through, anything
else acts as an empty record.  A JS array is also an object, but none of
the keys ever looked up (message, details, status, body, app,
created_at, urls) is an array property, so the empty record gives the
same lookups for arrays. -/
def asObject : JsValue → JsObj
  | .obj o => o
  | _ => .nil

mutual
/-- JS String(v) coercion for decoded JSON values: strings pass through,
numbers and booleans and null print, arrays join their element strings
with commas (a null element prints as the empty string inside an
array), plain objects print as the usual object placeholder. -/
def jsToString : JsValue → String
  | .null => "null"
  | .bool b => if b then "true" else "false"
  | .num n => toString n
  | .str s => s
  | .arr a => String.intercalate "," (jsArrElemStrings a)
  | .obj _ => "[object Object]"
def jsArrElemStrings : JsArr → List String
  | .nil => []
  | .cons .null t => "" :: jsArrElemStrings t
  | .cons v t => jsToString v :: jsArrElemStrings t
end

/-- getString of the client (src/app/page.tsx lines 39-41). -/
def getString : Option JsValue → Option String
  | some (.str s) => some s
  | _ => none

/-- asString of the relay handler (same body as getString). -/
def asString : Option JsValue → Option String
  | some (.str s) => some s
  | _ => none

/-- getStringArray of the client (lines 43-46): an array maps each
element through String(), anything else is undefined. -/
def getStringArray : Option JsValue → Option (List String)
  | some (.arr a) => some ((jsArrToList a).map jsToString)
  | _ => none

/-- asStringArray of the relay handler (same body as getStringArray). -/
def asStringArray : Option JsValue → Option (List String)
  | some (.arr a) => some ((jsArrToList a).map jsToString)
  | _ => none

/-- getNumber (lines 48-52): a number passes through; a string whose
trim is non-empty and which converts via Number() yields that value.
The Number() conversion is modelled as decimal integer parsing; no
claim involves other numeric string formats. -/
def getNumber : Option JsValue → Option Int
  | some (.num n) => some n
  | some (.str s) => if jsTrim s = "" then none else (jsTrim s).toInt?
  | _ => none

structure ApiData where
  message : String
  status : Option Int := none
  body : Option JsValue := none

structure ApiNg where
  message : String
  details : List String
  status : Option Int := none
  body : Option JsValue := none

structure ParseApiOut where
  ok : Option ApiData := none
  ng : Option ApiNg := none

/-- parseApi (lines 54-72): extract message/details/status/body
leniently from an arbitrary decoded value; a present non-empty details
array classifies the result as failure-shaped, anything else as
success-shaped. -/
def parseApi (v : JsValue) : ParseApiOut :=
  let o := asObject v
  let message := getString (objGet o "message")
  let details := getStringArray (objGet o "details")
  let status := getNumber (objGet o "status")
  let body := objGet o "body"
  let base : ApiData := ⟨message.getD "response", status, body⟩
  match details with
  | some (d :: ds) => { ng := some ⟨base.message, d :: ds, base.status, base.body⟩ }
  | _ => { ok := some base }

/-- The ResultState union of the client (lines 10-13). -/
inductive ResultState where
  | okRes (message : String) (data : Option ApiData)
  | ngRes (message : String) (details : Option (List String)) (data : Option ApiNg)

/-- The response-handling tail of onSubmit (lines 144-161): resOk is
res.ok, raw is the body decoded by res.json() (the caller substitutes
the empty object when decoding fails). -/
def onReceiveResponse (resOk : Bool) (raw : JsValue) : ResultState :=
  let parsed := parseApi raw
  if resOk then
    .okRes "n8nに投げた。次はワークフロー側で会社情報抽出だ。" (some (parsed.ok.getD ⟨"forwarded", none, none⟩))
  else
    match parsed.ng with
    | some n => .ngRes n.message (some n.details) (some n)
    | none => .ngRes "送信失敗" (some []) none

def noUrlMsg : String := "URLが0件。最低1件入れろ。"

def invalidMsg (idx : Nat) (u : String) : String :=
  "(" ++ toString idx ++ ") URL形式が壊れてる: " ++ u

def dupMsg : String := "重複URLが混ざってる。送信は自動でユニーク化する。"

/-- The indexed invalid-format messages of validate (lines 112-114); idx
is the 1-based display index of the next url. -/
def invalidMsgsFrom (validUrl : String → Bool) : Nat → List String → List String
  | _, [] => []
  | idx, u :: us =>
    (if validUrl u then [] else [invalidMsg idx u]) ++ invalidMsgsFrom validUrl (idx + 1) us

/-- validate (lines 108-120), parameterized by the platform's URL
well-formedness check (new URL(u) succeeding), which the component never
inspects beyond success/failure. -/
def validate (validUrl : String → Bool) (rows : List Row) : List String :=
  (if (uniqueUrlsOf rows).length = 0 then [noUrlMsg] else [])
  ++ invalidMsgsFrom validUrl 1 (uniqueUrlsOf rows)
  ++ (if (urlsOf rows).length ≠ (uniqueUrlsOf rows).length then [dupMsg] else [])

/-- Substring test of JS String.prototype.includes. -/
def hasInfixChars (pat : List Char) : List Char → Bool
  | [] => isPrefixCharsOf pat []
  | a :: t => isPrefixCharsOf pat (a :: t) || hasInfixChars pat t

def containsSub (s pat : String) : Bool := hasInfixChars pat.data s.data

/-- The fatal filter of onSubmit (line 126). -/
def fatalFilter (errors : List String) : List String :=
  errors.filter (fun e => containsSub e "壊れてる" || containsSub e "0件")

/-- Outcome of the client fetch to the relay: a response with res.ok and
the body decoded by res.json (none when decoding threw), or a network
exception. -/
inductive FetchOutcome where
  | response (ok : Bool) (jsonBody : Option JsValue)
  | netError (msg : String)

/-- onSubmit (lines 122-168).  The Bool of the result records whether
the network call was issued. -/
def onSubmit (validUrl : String → Bool) (rows : List Row) (fo : FetchOutcome) :
    ResultState × Bool :=
  let errors := validate validUrl rows
  let fatal := fatalFilter errors
  if fatal.length ≠ 0 then
    (.ngRes "入力が雑。直せ。" (some errors) none, false)
  else
    match fo with
    | .netError msg => (.ngRes "通信が死んだ" (some [msg]) none, true)
    | .response ok jsonBody => (onReceiveResponse ok (jsonBody.getD (.obj .nil)), true)

/-! The relay endpoint (the API route bundled in src/app/page.tsx after
the page component). -/

/-- safeJsonParse (route lines 391-397): JSON.parse is passed in as an
abstract decoder returning none exactly when it would throw; on decode
failure the raw text itself is the value. -/
def safeJsonParse (jsonParse : String → Option JsValue) (text : String) : JsValue :=
  match jsonParse text with
  | some v => v
  | none => .str text

/-- The truthiness test on process.env.N8N_WEBHOOK_URL: an absent or
empty variable is not configured. -/
def isConfigured : Option String → Bool
  | none => false
  | some w => w != ""

structure RelayEnvelope where
  message : String
  status : Option Nat := none
  details : Option (List String) := none
  body : Option JsValue := none

/-- The payload forwarded to the webhook (route lines 426-434), with the
meta object flattened into the record. -/
structure OutboundPayload where
  app : String
  urls : List String
  created_at : String
  user_agent : String
  ip_hint : String

/-- Outcome of the relay's outbound fetch: a downstream response
(status and raw text) or a transport exception. -/
inductive DownstreamResult where
  | resp (status : Nat) (text : String)
  | failed (msg : String)

def cfgErrMsg : String := "N8N_WEBHOOK_URL が未設定（Vercelの環境変数に入れろ）"

/-- The app field extraction (route line 417). -/
def relayApp (v : JsValue) : String :=
  (asString (objGet (asObject v) "app")).getD "Next Asia Link"

/-- The created_at field extraction (route line 418). -/
def relayCreatedAt (v : JsValue) (now : String) : String :=
  (asString (objGet (asObject v) "created_at")).getD now

/-- The urls field extraction (route line 420). -/
def relayUrls (v : JsValue) : List String :=
  (asStringArray (objGet (asObject v) "urls")).getD []

/-- POST of the relay route (lines 399-461): configuration check, body
decode (none models req.json() throwing), shape check on urls, then the
single outbound call whose outcome is mapped back.  The second
component is the outbound call made, if any. -/
def relayPOST (jsonParse : String → Option JsValue) (webhook : Option String)
    (reqBody : Option JsValue) (userAgent ipHint : Option String) (now : String)
    (downstream : DownstreamResult) : (Nat × RelayEnvelope) × Option OutboundPayload :=
  if isConfigured webhook = false then
    ((500, { message := cfgErrMsg }), none)
  else
    match reqBody with
    | none => ((400, { message := "JSONが壊れてる" }), none)
    | some v =>
      if (relayUrls v).length = 0 then ((400, { message := "urls が空" }), none)
      else
        let payload : OutboundPayload :=
          ⟨relayApp v, relayUrls v, relayCreatedAt v now, userAgent.getD "", ipHint.getD ""⟩
        match downstream with
        | .failed m =>
          ((502, { message := "Webhook転送で例外", details := some [m] }), some payload)
        | .resp st text =>
          let parsed := safeJsonParse jsonParse text
          if 200 ≤ st ∧ st ≤ 299 then
            ((200, { message := "forwarded", status := some st, body := some parsed }), some payload)
          else
            ((502, { message := "n8n がエラー返した", status := some st, body := some parsed }), some payload)

/-! Substring facts used to characterize the fatal-error filter. -/

theorem stringData_append (s t : String) : (s ++ t).data = s.data ++ t.data := by
  cases s
  cases t
  rfl

theorem isPrefixCharsOf_extend {pat m : List Char} (y : List Char)
    (h : isPrefixCharsOf pat m = true) : isPrefixCharsOf pat (m ++ y) = true := by
  induction pat generalizing m with
  | nil => rfl
  | cons a as ih =>
    cases m with
    | nil => simp [isPrefixCharsOf] at h
    | cons b bs =>
      rw [List.cons_append]
      simp only [isPrefixCharsOf] at h ⊢
      by_cases hab : a = b
      · rw [if_pos hab] at h ⊢
        exact ih h
      · rw [if_neg hab] at h
        exact absurd h (by simp)

theorem hasInfixChars_nil_pat (l : List Char) : hasInfixChars [] l = true := by
  cases l <;> simp [hasInfixChars, isPrefixCharsOf]

theorem hasInfixChars_append_right {pat m : List Char} (y : List Char)
    (h : hasInfixChars pat m = true) : hasInfixChars pat (m ++ y) = true := by
  induction m with
  | nil =>
    have hp : isPrefixCharsOf pat [] = true := h
    cases pat with
    | nil => simpa using hasInfixChars_nil_pat y
    | cons a as => simp [isPrefixCharsOf] at hp
  | cons a t ih =>
    rw [hasInfixChars] at h
    rcases Bool.or_eq_true_iff.mp h with h1 | h1
    · rw [List.cons_append, hasInfixChars]
      have := isPrefixCharsOf_extend y h1
      rw [List.cons_append] at this
      simp [this]
    · rw [List.cons_append, hasInfixChars]
      simp [ih h1]

theorem hasInfixChars_append_left {pat m : List Char} (x : List Char)
    (h : hasInfixChars pat m = true) : hasInfixChars pat (x ++ m) = true := by
  induction x with
  | nil => simpa using h
  | cons a xs ih =>
    rw [List.cons_append, hasInfixChars]
    simp [ih]

theorem containsSub_invalidMsg (k : Nat) (u : String) :
    containsSub (invalidMsg k u) "壊れてる" = true := by
  rw [containsSub, invalidMsg, stringData_append, stringData_append, stringData_append,
    List.append_assoc]
  apply hasInfixChars_append_left
  apply hasInfixChars_append_right
  rfl

theorem invalidMsg_mem (validUrl : String → Bool) (us : List String) :
    ∀ i u, u ∈ us → validUrl u = false →
      ∃ k, invalidMsg k u ∈ invalidMsgsFrom validUrl i us := by
  induction us with
  | nil =>
    intro i u h
    simp at h
  | cons u0 us ih =>
    intro i u hu hval
    rcases List.mem_cons.mp hu with h | h
    · subst h
      exact ⟨i, by simp [invalidMsgsFrom, hval]⟩
    · obtain ⟨k, hk⟩ := ih (i + 1) u h hval
      refine ⟨k, ?_⟩
      rw [invalidMsgsFrom]
      exact List.mem_append.mpr (Or.inr hk)

theorem noUrlMsg_mem {validUrl : String → Bool} {rows : List Row}
    (h : (uniqueUrlsOf rows).length = 0) : noUrlMsg ∈ validate validUrl rows := by
  rw [validate, if_pos h]
  simp

theorem invalid_mem {validUrl : String → Bool} {rows : List Row} {u : String}
    (hu : u ∈ uniqueUrlsOf rows) (hv : validUrl u = false) :
    ∃ k, invalidMsg k u ∈ validate validUrl rows := by
  obtain ⟨k, hk⟩ := invalidMsg_mem validUrl (uniqueUrlsOf rows) 1 u hu hv
  refine ⟨k, ?_⟩
  rw [validate]
  simp only [List.mem_append]
  tauto

theorem fatal_ne_nil {validUrl : String → Bool} {rows : List Row}
    (h : (uniqueUrlsOf rows).length = 0 ∨ ∃ u ∈ uniqueUrlsOf rows, validUrl u = false) :
    fatalFilter (validate validUrl rows) ≠ [] := by
  rcases h with h | ⟨u, hu, hv⟩
  · have hm : noUrlMsg ∈ validate validUrl rows := noUrlMsg_mem h
    exact List.ne_nil_of_mem (List.mem_filter.mpr ⟨hm, by rfl⟩)
  · obtain ⟨k, hk⟩ := invalid_mem hu hv
    have hpred : (containsSub (invalidMsg k u) "壊れてる" || containsSub (invalidMsg k u) "0件")
        = true := by
      rw [containsSub_invalidMsg]
      rfl
    exact List.ne_nil_of_mem (List.mem_filter.mpr ⟨hk, hpred⟩)

/-- C6: whenever validation yields a fatal error (no unique url, or some
unique url rejected by the URL parser), onSubmit performs no network
call and surfaces the rejection carrying every validation message; with
zero unique urls the messages include the no-target message. -/
theorem submit_fatal_no_network (validUrl : String → Bool) (rows : List Row) (fo : FetchOutcome)
    (h : (uniqueUrlsOf rows).length = 0 ∨ ∃ u ∈ uniqueUrlsOf rows, validUrl u = false) :
    onSubmit validUrl rows fo
        = (.ngRes "入力が雑。直せ。" (some (validate validUrl rows)) none, false)
    ∧ ((uniqueUrlsOf rows).length = 0 → noUrlMsg ∈ validate validUrl rows) := by
  have hfat := fatal_ne_nil h
  constructor
  · have hlen : (fatalFilter (validate validUrl rows)).length ≠ 0 := by
      simpa [List.length_eq_zero] using hfat
    simp only [onSubmit]
    rw [if_pos hlen]
  · intro h0
    exact noUrlMsg_mem h0

/-- Witness for C6: a single row "x" with a URL parser that rejects
everything produces the rejection with no network call. -/
theorem submit_fatal_no_network_witness :
    onSubmit (fun _ => false) [⟨0, "x"⟩] (.response true none)
        = (.ngRes "入力が雑。直せ。" (some (validate (fun _ => false) [⟨0, "x"⟩])) none, false) :=
  (submit_fatal_no_network (fun _ => false) [⟨0, "x"⟩] (.response true none)
    (Or.inr ⟨"https://x", by decide, rfl⟩)).1

/-- C1 counterexample: a failed relay response whose body has a message
but no details is surfaced with the generic message "送信失敗" and empty
details — the relay's own message "urls が空" is not carried. -/
theorem clientFailure_counterexample :
    onReceiveResponse false (.obj (.cons "message" (.str "urls が空") .nil))
        = .ngRes "送信失敗" (some []) none
    ∧ "送信失敗" ≠ "urls が空" :=
  ⟨rfl, by decide⟩

/-- C1 amended: on an HTTP-failure response the client always surfaces a
failed result; it carries the relay's message (the message field when a
string, else the placeholder "response"), the relay's details, and the
parsed record with the body field, exactly when the body's details field
extracts to a non-empty array; otherwise the failed result carries the
generic message "送信失敗", empty details and no data. -/
theorem clientFailure_behavior (raw : JsValue) :
    (match getStringArray (objGet (asObject raw) "details") with
     | some (d :: ds) =>
        onReceiveResponse false raw
          = .ngRes ((getString (objGet (asObject raw) "message")).getD "response")
              (some (d :: ds))
              (some ⟨(getString (objGet (asObject raw) "message")).getD "response", d :: ds,
                getNumber (objGet (asObject raw) "status"), objGet (asObject raw) "body"⟩)
     | _ => onReceiveResponse false raw = .ngRes "送信失敗" (some []) none) := by
  rcases hd : getStringArray (objGet (asObject raw) "details") with _ | ds
  · simp only [onReceiveResponse, parseApi, hd]
    rfl
  · cases ds with
    | nil =>
      simp only [onReceiveResponse, parseApi, hd]
      rfl
    | cons d ds =>
      simp only [onReceiveResponse, parseApi, hd]
      rfl

/-- C3: for every downstream response received by the relay (webhook
configured, body decoded, urls non-empty), the raw downstream text is
JSON-decoded with the raw text itself as fallback value, a non-success
downstream status maps to a 502 envelope carrying the generic failure
message, the downstream status and the parsed body, and a success
status maps to a 200 envelope carrying "forwarded", the downstream
status and the parsed body. -/
theorem relay_downstream_mapping (jsonParse : String → Option JsValue) (webhook : Option String)
    (v : JsValue) (ua ip : Option String) (now : String) (st : Nat) (text : String)
    (hw : isConfigured webhook = true)
    (hurls : (relayUrls v).length ≠ 0) :
    (jsonParse text = none → safeJsonParse jsonParse text = .str text)
    ∧ (¬(200 ≤ st ∧ st ≤ 299) →
        (relayPOST jsonParse webhook (some v) ua ip now (.resp st text)).1
          = (502, { message := "n8n がエラー返した", status := some st,
                    body := some (safeJsonParse jsonParse text) }))
    ∧ ((200 ≤ st ∧ st ≤ 299) →
        (relayPOST jsonParse webhook (some v) ua ip now (.resp st text)).1
          = (200, { message := "forwarded", status := some st,
                    body := some (safeJsonParse jsonParse text) })) := by
  refine ⟨fun hn => by simp [safeJsonParse, hn], fun hst => ?_, fun hst => ?_⟩
  · simp [relayPOST, hw, hurls, hst]
  · simp [relayPOST, hw, hurls, hst]

/-- Witness for C3: a downstream 503 with JSON body x:1 is mapped to a
502 envelope embedding status 503 and the decoded body, and a
downstream 200 with non-JSON text "ok" is mapped to a 200 envelope with
the raw text as body. -/
theorem relay_downstream_mapping_witness :
    (relayPOST (fun t => if t = "\x7b\"x\":1\x7d" then some (.obj (.cons "x" (.num 1) .nil)) else none)
        (some "https://n8n.example/hook")
        (some (.obj (.cons "urls" (.arr (.cons (.str "https://a.com") .nil)) .nil)))
        none none "2024-01-01T00:00:00Z" (.resp 503 "\x7b\"x\":1\x7d")).1
      = (502, { message := "n8n がエラー返した", status := some 503,
                body := some (.obj (.cons "x" (.num 1) .nil)) })
    ∧ (relayPOST (fun _ => none) (some "https://n8n.example/hook")
        (some (.obj (.cons "urls" (.arr (.cons (.str "https://a.com") .nil)) .nil)))
        none none "2024-01-01T00:00:00Z" (.resp 200 "ok")).1
      = (200, { message := "forwarded", status := some 200, body := some (.str "ok") }) := by
  constructor
  · have h := (relay_downstream_mapping
      (fun t => if t = "\x7b\"x\":1\x7d" then some (.obj (.cons "x" (.num 1) .nil)) else none)
      (some "https://n8n.example/hook")
      (.obj (.cons "urls" (.arr (.cons (.str "https://a.com") .nil)) .nil))
      none none "2024-01-01T00:00:00Z" 503 "\x7b\"x\":1\x7d" rfl (by decide)).2.1 (by omega)
    rw [h]
    rfl
  · have h := (relay_downstream_mapping (fun _ => none) (some "https://n8n.example/hook")
      (.obj (.cons "urls" (.arr (.cons (.str "https://a.com") .nil)) .nil))
      none none "2024-01-01T00:00:00Z" 200 "ok" rfl (by decide)).2.2 (by omega)
    rw [h]
    rfl

/-- C7: with no webhook destination configured (unset or empty), the
relay responds 500 with the explanatory message and performs no
outbound call, whatever the request body (decoded or malformed) and
whatever would have happened downstream. -/
theorem relay_unconfigured (jsonParse : String → Option JsValue) (webhook : Option String)
    (reqBody : Option JsValue) (ua ip : Option String) (now : String) (ds : DownstreamResult)
    (h : isConfigured webhook = false) :
    relayPOST jsonParse webhook reqBody ua ip now ds = ((500, { message := cfgErrMsg }), none) := by
  simp [relayPOST, h]

/-- Witness for C7: unset webhook and a malformed request body give the
500 envelope and no outbound call. -/
theorem relay_unconfigured_witness :
    relayPOST (fun _ => none) none none none none "t" (.resp 200 "x")
      = ((500, { message := cfgErrMsg }), none) :=
  relay_unconfigured (fun _ => none) none none none none "t" (.resp 200 "x") rfl

theorem relay_empty_urls_aux (jsonParse : String → Option JsValue) (webhook : Option String)
    (v : JsValue) (ua ip : Option String) (now : String) (ds : DownstreamResult)
    (hw : isConfigured webhook = true)
    (hurls : (relayUrls v).length = 0) :
    relayPOST jsonParse webhook (some v) ua ip now ds
      = ((400, { message := "urls が空" }), none) := by
  simp [relayPOST, hw, hurls]

/-- C8: with the webhook configured and a JSON-decoded body lacking a
non-empty urls array (missing, not an array, or empty), the relay
responds 400 with the explanatory message and performs no outbound
call. -/
theorem relay_empty_urls (jsonParse : String → Option JsValue) (webhook : Option String)
    (v : JsValue) (ua ip : Option String) (now : String) (ds : DownstreamResult)
    (hw : isConfigured webhook = true)
    (hurls : (relayUrls v).length = 0) :
    relayPOST jsonParse webhook (some v) ua ip now ds
      = ((400, { message := "urls が空" }), none) :=
  relay_empty_urls_aux jsonParse webhook v ua ip now ds hw hurls

/-- Witness for C8: urls present but the empty array gives the 400
envelope and no outbound call. -/
theorem relay_empty_urls_witness :
    relayPOST (fun _ => none) (some "w") (some (.obj (.cons "urls" (.arr .nil) .nil)))
        none none "t" (.resp 200 "x")
      = ((400, { message := "urls が空" }), none) :=
  relay_empty_urls (fun _ => none) (some "w") (.obj (.cons "urls" (.arr .nil) .nil))
    none none "t" (.resp 200 "x") rfl rfl

/-- C10: with the webhook configured and a decoded body, the relay
responds 400 exactly when the decoded value (a non-object acting as an
empty record) lacks a non-empty array under urls; otherwise it forwards
with no further shape validation: the app field defaults to
"Next Asia Link" unless a string, created_at defaults to the current
timestamp unless a string, and every element of the urls array is
coerced through the String() conversion. -/
theorem relay_shape_iff (jsonParse : String → Option JsValue) (webhook : Option String)
    (v : JsValue) (ua ip : Option String) (now : String) (ds : DownstreamResult)
    (hw : isConfigured webhook = true) :
    ((relayPOST jsonParse webhook (some v) ua ip now ds).1.1 = 400 ↔ relayUrls v = [])
    ∧ (relayUrls v ≠ [] →
        (relayPOST jsonParse webhook (some v) ua ip now ds).2
          = some ⟨relayApp v, relayUrls v, relayCreatedAt v now, ua.getD "", ip.getD ""⟩)
    ∧ (∀ a : JsArr, objGet (asObject v) "urls" = some (.arr a) →
        relayUrls v = (jsArrToList a).map jsToString) := by
  by_cases hu : relayUrls v = []
  · have hlen : (relayUrls v).length = 0 := by simp [hu]
    refine ⟨?_, ?_, ?_⟩
    · rw [relay_empty_urls_aux jsonParse webhook v ua ip now ds hw hlen]
      simp [hu]
    · intro hne
      exact absurd hu hne
    · intro a ha
      rw [relayUrls, ha]
      rfl
  · have hlen : (relayUrls v).length ≠ 0 := by
      simpa [List.length_eq_zero] using hu
    have hst : ∀ x, relayPOST jsonParse webhook (some v) ua ip now ds
        = x → x.1.1 = 502 ∨ x.1.1 = 200 → True := fun _ _ _ => trivial
    refine ⟨?_, ?_, ?_⟩
    · constructor
      · intro h400
        exfalso
        cases ds with
        | failed m =>
          have : (relayPOST jsonParse webhook (some v) ua ip now (.failed m)).1.1 = 502 := by
            simp [relayPOST, hw, hlen]
          omega
        | resp st text =>
          by_cases hok : 200 ≤ st ∧ st ≤ 299
          · have : (relayPOST jsonParse webhook (some v) ua ip now (.resp st text)).1.1 = 200 := by
              simp [relayPOST, hw, hlen, hok]
            omega
          · have : (relayPOST jsonParse webhook (some v) ua ip now (.resp st text)).1.1 = 502 := by
              simp [relayPOST, hw, hlen, hok]
            omega
      · intro h
        exact absurd h hu
    · intro _
      cases ds with
      | failed m => simp [relayPOST, hw, hlen]
      | resp st text =>
        by_cases hok : 200 ≤ st ∧ st ≤ 299
        · simp [relayPOST, hw, hlen, hok]
        · simp [relayPOST, hw, hlen, hok]
    · intro a ha
      rw [relayUrls, ha]
      rfl

/-- Witness for C10: a body whose urls holds a number and an object and
whose app is a number forwards with the elements coerced to "1" and
"[object Object]" and the app defaulted. -/
theorem relay_shape_iff_witness :
    (relayPOST (fun _ => none) (some "w")
        (some (.obj (.cons "app" (.num 5)
          (.cons "urls" (.arr (.cons (.num 1) (.cons (.obj .nil) .nil))) .nil))))
        none none "2024" (.resp 200 "ok")).2
      = some ⟨"Next Asia Link", ["1", "[object Object]"], "2024", "", ""⟩ := by
  have h := (relay_shape_iff (fun _ => none) (some "w")
      (.obj (.cons "app" (.num 5)
        (.cons "urls" (.arr (.cons (.num 1) (.cons (.obj .nil) .nil))) .nil)))
      none none "2024" (.resp 200 "ok") rfl).2.1 (by decide)
  rw [h]
  rfl
